import Mathlib

/-!
Verification development for the drogue-opcua-agent middleware, data layer,
MQTT command adapter and OPC UA variant conversion.

The Rust sources are embedded shallowly:

* `serde_json::Value` becomes `JValue`; `serde_json::Number` becomes `JNum`,
  an inductive mirroring serde's internal representation (non-negative
  integers, negative integers, floats, and — with the arbitrary-precision
  feature — numbers representable as none of the three).  Floating-point
  payloads are carried opaquely (the code never computes on them).
* `HashMap<String, Value>` extension maps become functions
  `String → Option JValue`; `HashMap::extend` is key-wise override, which is
  exactly its semantics independent of iteration order.
* `HashMap<Address, Source>` becomes the lookup function
  `List String → Option Source`.
* The `compacted : HashMap<String, mqtt::Event>` of the feature data layer
  becomes an insertion-ordered association list.  `HashMap` iteration order
  is arbitrary; the properties proved below (event count, per-channel
  payload content) are insensitive to that order.
* serde_json object values are association lists; `Map::insert` replaces an
  existing key in place or appends.  Key order of emitted objects is
  unspecified by the spec, and all statements below access objects only
  through lookup.
-/

namespace Drogue

/-- JSON numbers as `serde_json` represents them: `posInt` for integers in
`0 ..= u64::MAX` (where `as_u64` succeeds), `negInt` for negative integers
(where `as_i64` succeeds), `float` for `f64` payloads carried opaquely by
their IEEE-754 bit pattern, and `big` for arbitrary-precision literals
representable as none of `u64`/`i64`/`f64`. -/
inductive JNum where
  | posInt (n : Nat)
  | negInt (n : Int)
  | float (bits : Nat)
  | big (lit : String)
deriving DecidableEq, Repr

/-- `serde_json::Value`: the canonical JSON value model. Objects are
association lists of fields. -/
inductive JValue where
  | null
  | bool (b : Bool)
  | num (n : JNum)
  | str (s : String)
  | arr (xs : List JValue)
  | obj (fields : List (String × JValue))
deriving Repr

/-- `serde_json::Number::as_u64`: succeeds exactly on the non-negative
integer representation. -/
def JNum.asU64 : JNum → Option Nat
  | .posInt n => some n
  | _ => none

/-- `serde_json::Number::as_i64`: succeeds on negative integers, and on
non-negative integers not exceeding `i64::MAX`. -/
def JNum.asI64 : JNum → Option Int
  | .posInt n => if n ≤ 2 ^ 63 - 1 then some (n : Int) else none
  | .negInt n => some n
  | _ => none

/-- `serde_json::Number::as_f64`: succeeds on the three primitive
representations (integers via the platform int-to-double conversion, floats
exactly); it can fail only for arbitrary-precision literals.  The resulting
double is modelled by the number that produced it, since the agent never
computes on the float. -/
def JNum.asF64 : JNum → Option JNum
  | .big _ => none
  | n => some n

/-- `Value::as_str`: the string payload, when the value is a string. -/
def JValue.asStr : JValue → Option String
  | .str s => some s
  | _ => none

/-- Lookup of a field in a JSON object's field list (first match; serde
rejects duplicate keys so parsed objects have at most one). -/
def lookupField (fields : List (String × JValue)) (k : String) : Option JValue :=
  match fields with
  | [] => none
  | (k', v) :: rest => if k' = k then some v else lookupField rest k

/-- `serde_json::Map::insert`: replace the value of an existing key in
place, or append a new binding. -/
def insertField (fields : List (String × JValue)) (k : String) (v : JValue) :
    List (String × JValue) :=
  match fields with
  | [] => [(k, v)]
  | (k', v') :: rest =>
    if k' = k then (k, v) :: rest else (k', v') :: insertField rest k v

end Drogue

namespace Drogue

/-! ### Address (src/middleware.rs)

`Address` is a newtype over `Vec<String>`; we embed it as `List String`. -/

/-- An address: a list of path segments. -/
abbrev Address := List String

/-- The character loop of `Address::from_str` (src/middleware.rs:74-89):
`/` closes the current segment, `\` makes the following character literal
(a trailing `\` is ignored and the loop ends, pushing the current segment),
any other character is appended to the current segment. -/
def parseChars : List Char → List String → List Char → List String
  | [], paths, current => paths ++ [String.mk current]
  | '/' :: rest, paths, current => parseChars rest (paths ++ [String.mk current]) []
  | '\\' :: c2 :: rest2, paths, current => parseChars rest2 paths (current ++ [c2])
  | ['\\'], paths, current => paths ++ [String.mk current]
  | c :: rest, paths, current => parseChars rest paths (current ++ [c])

/-- `Address::from_str` (src/middleware.rs:65-94): the empty string parses
to the empty address, otherwise the escape-aware split on `/`. -/
def addressFromStr (s : String) : Address :=
  if s.data.isEmpty then [] else parseChars s.data [] []

/-- `char::escape_debug` as used by `Debug for String`, for the characters
relevant here: quote and backslash are escaped with a backslash, the common
control characters get their two-character escapes, other control characters
a `\u{..}` escape, and everything else is kept verbatim. -/
def escDebugChar (c : Char) : List Char :=
  if c = '"' then ['\\', '"']
  else if c = '\\' then ['\\', '\\']
  else if c = '\n' then ['\\', 'n']
  else if c = '\r' then ['\\', 'r']
  else if c = '\t' then ['\\', 't']
  else if c = Char.ofNat 0 then ['\\', '0']
  else if c.toNat < 32 ∨ c.toNat = 127 then
    ['\\', 'u', Char.ofNat 123] ++ Nat.toDigits 16 c.toNat ++ [Char.ofNat 125]
  else [c]

/-- `Debug` form of a `String`: the escaped contents between double
quotes. -/
def debugStr (s : String) : String :=
  String.mk ('"' :: s.data.foldr (fun c acc => escDebugChar c ++ acc) ['"'])

/-- `Display for Address` (src/middleware.rs:97-101): the body
`self.0.fmt(f)` resolves to `Debug::fmt` on `Vec<String>` — `Vec` has no
`Display` implementation — so an address renders as the debug form of the
vector: the comma-separated debug-quoted segments between brackets. -/
def displayAddress (a : Address) : String :=
  "[" ++ String.intercalate ", " (a.map debugStr) ++ "]"

/-- Escape one segment for the escape-aware renderer: `/` and `\` are
preceded by `\`. -/
def escSegChars (s : List Char) : List Char :=
  s.foldr (fun c acc => if c = '/' ∨ c = '\\' then '\\' :: c :: acc else c :: acc) []

/-- Modelled from the spec (§4.1 `render`, which has no counterpart under
src/): the escape-aware textual form of an address — segments joined by
`/`, with `/` and `\` inside a segment escaped by a preceding `\`. -/
def renderChars : List String → List Char
  | [] => []
  | [s] => escSegChars s.data
  | s :: rest => escSegChars s.data ++ '/' :: renderChars rest

/-- Modelled from the spec: the escape-aware renderer as a string. -/
def renderAddress (a : Address) : String :=
  String.mk (renderChars a)

end Drogue

namespace Drogue

/-! ### Routing middleware (src/middleware.rs) -/

/-- Extension maps (`HashMap<String, Value>`), as key-to-value functions. -/
abbrev Extensions := String → Option JValue

/-- The empty extension map (`Default::default()`). -/
def emptyExt : Extensions := fun _ => none

/-- `HashMap::insert` on an extension map. -/
def extInsert (e : Extensions) (k : String) (v : JValue) : Extensions :=
  fun k' => if k' = k then some v else e k'

/-- `HashMap::extend`: every binding of `add` overrides `e`. -/
def extendExt (e add : Extensions) : Extensions :=
  fun k => match add k with
    | some v => some v
    | none => e k

/-- A routing rule (`Source`, src/middleware.rs:112-120). -/
structure Source where
  drop : Option Bool
  channel : Option String
  extensions : Extensions

/-- A rule table (`HashMap<Address, Source>`), by its lookup function. -/
abbrev RuleMap := Address → Option Source

/-- The routing configuration (src/middleware.rs:103-110). -/
structure Configuration where
  sources : RuleMap
  sinks : RuleMap

/-- One observed change (`Update`, src/middleware.rs:127-133). -/
@[ext]
structure Update where
  address : Address
  channel : String
  value : JValue
  extensions : Extensions

/-- A batch of updates (`Event`, src/middleware.rs:135-138). -/
structure Event where
  updates : List Update

/-- An outbound MQTT event (src/mqtt.rs:19-23). -/
structure MqttEvent where
  channel : String
  payload : JValue

/-- The prefix scan of `process_update` (src/middleware.rs:253-260): the
rules found at `address[..i]` for `i = 0 ..= len`, least- to
most-specific, missing entries skipped. -/
def collectSources (config : RuleMap) (addr : Address) : List Source :=
  (List.range (addr.length + 1)).filterMap fun i => config (addr.take i)

/-- `find` (src/middleware.rs:286-299): the last `Some` produced by `f`
over the collected rules — i.e. the most specific override. -/
def findLastSome {T : Type} (sources : List Source) (f : Source → Option T) : Option T :=
  sources.foldl
    (fun r s =>
      match f s with
      | some t => some t
      | none => r)
    none

/-- `Middleware::process_update` (src/middleware.rs:251-282): collect the
rules at all prefixes; drop when the most specific `drop` override is
`true`; otherwise apply the most specific `channel` override and merge all
rule extensions, least- to most-specific, into the update's map. -/
def processUpdate (config : RuleMap) (update : Update) : Option Update :=
  let sources := collectSources config update.address
  match findLastSome sources (fun s => s.drop) with
  | some true => none
  | _ =>
    let update :=
      match findLastSome sources (fun s => s.channel) with
      | some c => { update with channel := c }
      | none => update
    let update :=
      { update with
        extensions := sources.foldl (fun e s => extendExt e s.extensions) update.extensions }
    some update

/-- `Middleware::process_command` (src/middleware.rs:230-240): route every
update of the command batch through the sink table and wrap the survivors —
in order — into a single event.  `handle_command` (src/middleware.rs:206-216)
then sends each produced event to the device sink, so exactly this one
event is sent. -/
def processCommand (config : Configuration) (command : Event) : List Event :=
  [{ updates := command.updates.filterMap (processUpdate config.sinks) }]

end Drogue

namespace Drogue

/-! ### Feature data layer (src/data.rs) -/

/-- Feature-name resolution of `FeatureDataLayer::update`
(src/data.rs:29-34): `extensions["feature"]` when present and a string,
otherwise the last address segment, otherwise unresolved. -/
def featureOf (u : Update) : Option String :=
  match u.extensions "feature" with
  | some (JValue.str s) => some s
  | _ => u.address.getLast?

/-- The event freshly inserted for a vacant channel entry
(src/data.rs:38-47): payload `{"features": {feature: value}}`. -/
def newChannelEvent (channel feature : String) (v : JValue) : MqttEvent :=
  { channel := channel
    payload := JValue.obj [("features", JValue.obj [(feature, v)])] }

/-- The occupied-entry branch (src/data.rs:48-52): when
`payload["features"]` is an object, insert the feature into it. -/
def eventInsertFeature (e : MqttEvent) (feature : String) (v : JValue) : MqttEvent :=
  match e.payload with
  | JValue.obj fields =>
    match lookupField fields "features" with
    | some (JValue.obj feats) =>
      { e with
        payload := JValue.obj (insertField fields "features" (JValue.obj (insertField feats feature v))) }
    | _ => e
  | _ => e

/-- One step of the compaction loop: the entry API on the `compacted` map
(src/data.rs:37-53), keyed by the update's channel. -/
def compactedInsert (m : List (String × MqttEvent)) (u : Update) (feature : String) :
    List (String × MqttEvent) :=
  match m with
  | [] => [(u.channel, newChannelEvent u.channel feature u.value)]
  | (c, e) :: rest =>
    if c = u.channel then (c, eventInsertFeature e feature u.value) :: rest
    else (c, e) :: compactedInsert rest u feature

/-- The compaction loop of `FeatureDataLayer::update` (src/data.rs:28-55):
updates without a resolvable feature are skipped. -/
def compactFold (m : List (String × MqttEvent)) (updates : List Update) :
    List (String × MqttEvent) :=
  updates.foldl
    (fun m u =>
      match featureOf u with
      | some feature => compactedInsert m u feature
      | none => m)
    m

/-- `FeatureDataLayer::update` (src/data.rs:22-58): compact the batch into
one event per touched channel and return the values of the map. -/
def dataLayerUpdate (updates : List Update) : List MqttEvent :=
  (compactFold [] updates).map Prod.snd

/-- `Middleware::process_event` (src/middleware.rs:242-249): source-route
the batch and feed the survivors to the data layer. -/
def processEvent (config : Configuration) (event : Event) : List MqttEvent :=
  dataLayerUpdate (event.updates.filterMap (processUpdate config.sources))

end Drogue

namespace Drogue

/-! ### MQTT command adapter (src/mqtt.rs) -/

/-- The payload schema of the write command (src/mqtt.rs:241-247),
deserialized with camelCase field renaming. -/
structure WriteCommand where
  connection : String
  value : JValue
  nodeId : String

/-- serde deserialization of `WriteCommand` from a JSON value: an object
with a string `connection`, any `value`, and a string `nodeId` (unknown
fields are ignored, as serde does by default). -/
def parseWriteCommand (v : JValue) : Option WriteCommand :=
  match v with
  | JValue.obj fields =>
    match lookupField fields "connection", lookupField fields "value",
        lookupField fields "nodeId" with
    | some (JValue.str connection), some value, some (JValue.str nodeId) =>
      some { connection := connection, value := value, nodeId := nodeId }
    | _, _, _ => none
  | _ => none

/-- `MqttCloudConnector::handle_command` (src/mqtt.rs:234-280) as the event
it forwards, if any.  The incoming publish is modelled by its topic and the
JSON value of its payload bytes (`none` when the bytes are not valid JSON).
Only the topic `command/inbox//write` is recognized; a payload that fails
to deserialize produces nothing; otherwise a single-update event is built
via `Update::new` with address `["cloud","commands",connection]`, channel
`connection`, the command's value, and `extensions["nodeId"] = nodeId`. -/
def handleCommand (topic : String) (payload : Option JValue) : Option Event :=
  if topic = "command/inbox//write" then
    match payload.bind parseWriteCommand with
    | none => none
    | some command =>
      some
        { updates :=
            [{ address := ["cloud", "commands", command.connection]
               channel := command.connection
               value := command.value
               extensions := extInsert emptyExt "nodeId" (JValue.str command.nodeId) }] }
  else none

end Drogue

namespace Drogue

/-! ### OPC UA variant conversion (src/opcua/mod.rs) -/

/-- The OPC UA status codes reachable from `into_variant`. -/
inductive StatusCode where
  | BadInvalidArgument
  | BadDataEncodingUnsupported
  | BadDataEncodingInvalid
deriving DecidableEq, Repr

/-- The OPC UA `Variant` constructors reachable from `into_variant`.
Doubles carry the JSON number they came from (`as_f64`'s result is carried
opaquely).  `other` stands for the variants produced by the library's
name-keyed object dispatch. -/
inductive Variant where
  | empty
  | boolean (b : Bool)
  | uint64 (n : Nat)
  | int64 (n : Int)
  | double (v : JNum)
  | string (s : String)
  | statusCode (code : StatusCode)
  | other

/-- `impl IntoVariant for Value` (src/opcua/mod.rs:484-515).  The object
branch delegates to `serde_json::from_value::<Variant>`, library code
outside this repository, abstracted here as the parameter `objDispatch`;
its failure maps to `BadDataEncodingInvalid`. -/
def intoVariant (objDispatch : List (String × JValue) → Option Variant) :
    JValue → Variant
  | .null => .empty
  | .bool b => .boolean b
  | .num n =>
    match n.asU64 with
    | some v => .uint64 v
    | none =>
      match n.asI64 with
      | some v => .int64 v
      | none =>
        match n.asF64 with
        | some v => .double v
        | none => .statusCode .BadInvalidArgument
  | .str s => .string s
  | .arr _ => .statusCode .BadDataEncodingUnsupported
  | .obj fields =>
    match objDispatch fields with
    | some v => v
    | none => .statusCode .BadDataEncodingInvalid

end Drogue

namespace Drogue

/-! ### Helper lemmas -/

/-- The `find` loop keeps the last `Some`: as a fold with arbitrary start,
it returns the last element of the filtered list, or the start value. -/
theorem foldl_lastSome {T : Type} (f : Source → Option T) (l : List Source)
    (init : Option T) :
    l.foldl
        (fun r s =>
          match f s with
          | some t => some t
          | none => r)
        init =
      match (l.filterMap f).getLast? with
      | some v => some v
      | none => init := by
  induction l using List.reverseRecOn generalizing init with
  | nil => simp
  | append_singleton l x ih =>
    rw [List.foldl_append, List.filterMap_append]
    cases hfx : f x with
    | none => simp [hfx, ih]
    | some v => simp [hfx, List.getLast?_concat]

/-- `find` (src/middleware.rs:286-299) returns the last rule value set
among the collected rules. -/
theorem findLastSome_eq_getLast? {T : Type} (l : List Source) (f : Source → Option T) :
    findLastSome l f = (l.filterMap f).getLast? := by
  rw [findLastSome, foldl_lastSome]
  cases (l.filterMap f).getLast? <;> rfl

end Drogue

namespace Drogue

/-! ### C2: the drop decision -/

/-- C2: `process_update` drops an update exactly when, among the rules found
at the prefixes of its address iterated least- to most-specific, the last
rule with `drop` set has `drop == true`. -/
theorem processUpdate_drop_iff (R : RuleMap) (u : Update) :
    processUpdate R u = none ↔
      ((collectSources R u.address).filterMap Source.drop).getLast? = some true := by
  unfold processUpdate
  dsimp only
  rw [show (fun s : Source => s.drop) = Source.drop from rfl,
    findLastSome_eq_getLast? (collectSources R u.address) Source.drop]
  cases h : ((collectSources R u.address).filterMap Source.drop).getLast? with
  | none => simp [h]
  | some b => cases b <;> simp [h]

end Drogue

namespace Drogue

/-! ### C3: channel resolution -/

/-- The channel of the longest matching prefix rule that sets one: iterate
the prefix lengths from the longest down and take the first `channel`
override found. -/
def longestChannel (R : RuleMap) (addr : Address) : Option String :=
  ((List.range (addr.length + 1)).reverse.filterMap fun i =>
    (R (addr.take i)).bind Source.channel).head?

/-- The most specific `channel` override is the one at the longest matching
prefix. -/
theorem findLastSome_channel_eq_longest (R : RuleMap) (addr : Address) :
    findLastSome (collectSources R addr) (fun s => s.channel) = longestChannel R addr := by
  rw [findLastSome_eq_getLast?, List.getLast?_eq_head?_reverse, collectSources,
    List.filterMap_filterMap, ← List.filterMap_reverse]
  rfl

/-- C3: when an update survives routing, its resulting channel is the
`channel` value of the rule at the longest matching prefix that sets one,
and the incoming channel otherwise. -/
theorem processUpdate_channel (R : RuleMap) (u : Update)
    (h : (processUpdate R u).isSome = true) :
    (processUpdate R u).map Update.channel =
      some ((longestChannel R u.address).getD u.channel) := by
  unfold processUpdate at h ⊢
  cases hd : findLastSome (collectSources R u.address) (fun s => s.drop) with
  | some b =>
    cases b with
    | true => simp [hd] at h
    | false =>
      rw [← findLastSome_channel_eq_longest]
      cases hc : findLastSome (collectSources R u.address) (fun s => s.channel) <;>
        simp [hd, hc]
  | none =>
    rw [← findLastSome_channel_eq_longest]
    cases hc : findLastSome (collectSources R u.address) (fun s => s.channel) <;>
      simp [hd, hc]

/-- An example rule setting the channel at the prefix `["a"]`. -/
def exChannelSource : Source :=
  { drop := none, channel := some "ch-A", extensions := emptyExt }

/-- An example rule table with a single rule at `["a"]`. -/
def exChannelRules : RuleMap := fun a => if a = ["a"] then some exChannelSource else none

/-- An example update below the prefix `["a"]`. -/
def exChannelUpdate : Update :=
  { address := ["a", "b"], channel := "orig", value := JValue.null, extensions := emptyExt }

/-- Witness for C3 at a concrete rule table and update. -/
theorem processUpdate_channel_witness :
    (processUpdate exChannelRules exChannelUpdate).map Update.channel =
      some ((longestChannel exChannelRules exChannelUpdate.address).getD
        exChannelUpdate.channel) :=
  processUpdate_channel exChannelRules exChannelUpdate (by decide)

end Drogue

namespace Drogue

/-! ### C9: routing idempotence -/

/-- `find` on a cons: the tail's last override wins, else the head's. -/
theorem findLastSome_cons {T : Type} (f : Source → Option T) (hd : Source)
    (t : List Source) :
    findLastSome (hd :: t) f =
      match findLastSome t f with
      | some v => some v
      | none => f hd := by
  rw [findLastSome, List.foldl_cons, foldl_lastSome, findLastSome_eq_getLast?]
  cases (t.filterMap f).getLast? <;> cases f hd <;> rfl

/-- Pointwise value of the extension merge loop: the most specific rule
binding a key wins, else the original update's binding. -/
theorem foldl_extendExt_apply (ss : List Source) (e : Extensions) (k : String) :
    (ss.foldl (fun e s => extendExt e s.extensions) e) k =
      match findLastSome ss (fun s => s.extensions k) with
      | some v => some v
      | none => e k := by
  induction ss generalizing e with
  | nil => rfl
  | cons hd t ih =>
    rw [List.foldl_cons, ih, findLastSome_cons]
    cases findLastSome t (fun s => s.extensions k) with
    | some v => rfl
    | none =>
      show extendExt e hd.extensions k = _
      unfold extendExt
      cases hd.extensions k <;> rfl

/-- Merging the same rule extensions a second time changes nothing. -/
theorem foldl_extendExt_idem (ss : List Source) (e : Extensions) :
    ss.foldl (fun e s => extendExt e s.extensions)
        (ss.foldl (fun e s => extendExt e s.extensions) e) =
      ss.foldl (fun e s => extendExt e s.extensions) e := by
  funext k
  rw [foldl_extendExt_apply, foldl_extendExt_apply]
  cases findLastSome ss (fun s => s.extensions k) <;> rfl

/-- A dropped update: `process_update` returns `None` as soon as the most
specific `drop` override is `true`. -/
theorem processUpdate_eq_none (R : RuleMap) (u : Update)
    (h : findLastSome (collectSources R u.address) (fun s => s.drop) = some true) :
    processUpdate R u = none := by
  unfold processUpdate
  dsimp only
  rw [h]

/-- A surviving update, in closed form. -/
theorem processUpdate_eq_some (R : RuleMap) (u : Update)
    (h : findLastSome (collectSources R u.address) (fun s => s.drop) ≠ some true) :
    processUpdate R u =
      some
        { address := u.address
          channel :=
            match findLastSome (collectSources R u.address) (fun s => s.channel) with
            | some c => c
            | none => u.channel
          value := u.value
          extensions :=
            (collectSources R u.address).foldl (fun e s => extendExt e s.extensions)
              u.extensions } := by
  unfold processUpdate
  dsimp only
  cases hd : findLastSome (collectSources R u.address) (fun s => s.drop) with
  | some b =>
    cases b with
    | true => exact absurd hd h
    | false => cases hc : findLastSome (collectSources R u.address) (fun s => s.channel) <;> rfl
  | none => cases hc : findLastSome (collectSources R u.address) (fun s => s.channel) <;> rfl

/-- C9: routing is idempotent — applying `process_update` to its own output
returns that output unchanged (the same address, channel, value, and
extension map), and a dropped update stays dropped. -/
theorem processUpdate_idempotent (R : RuleMap) (u : Update) :
    (processUpdate R u).bind (processUpdate R) = processUpdate R u := by
  by_cases hd : findLastSome (collectSources R u.address) (fun s => s.drop) = some true
  · rw [processUpdate_eq_none R u hd]
    rfl
  · rw [processUpdate_eq_some R u hd]
    rw [Option.some_bind]
    rw [processUpdate_eq_some R _ (by simpa using hd)]
    simp only
    congr 1
    apply Update.ext
    · rfl
    · cases hc : findLastSome (collectSources R u.address) (fun s => s.channel) <;> simp [hc]
    · rfl
    · exact foldl_extendExt_idem _ _

end Drogue

namespace Drogue

/-! ### C10: command processing produces exactly one event -/

/-- C10: `process_command` produces exactly one event; its updates are
exactly the input updates that survive sink routing, in input order; in
particular an empty or fully-dropped batch still yields one event with an
empty update list (which `handle_command` then sends to the device
sink). -/
theorem processCommand_single (cfg : Configuration) (ev : Event) :
    (processCommand cfg ev).length = 1 ∧
      (∀ e ∈ processCommand cfg ev,
        e.updates = ev.updates.filterMap (processUpdate cfg.sinks)) ∧
      (ev.updates = [] → processCommand cfg ev = [{ updates := [] }]) := by
  refine ⟨rfl, ?_, ?_⟩
  · intro e he
    simp only [processCommand, List.mem_singleton] at he
    rw [he]
  · intro h
    simp [processCommand, h]

/-- An empty routing configuration. -/
def exEmptyConfig : Configuration := { sources := fun _ => none, sinks := fun _ => none }

/-- An empty command batch. -/
def exEmptyEvent : Event := { updates := [] }

/-- Witness for C10 at the empty configuration and the empty batch. -/
theorem processCommand_single_witness :
    ({ updates := ([] : List Update) } : Event).updates =
        exEmptyEvent.updates.filterMap (processUpdate exEmptyConfig.sinks) ∧
      processCommand exEmptyConfig exEmptyEvent = [{ updates := [] }] :=
  ⟨(processCommand_single exEmptyConfig exEmptyEvent).2.1 _ (by simp [processCommand, exEmptyEvent]),
   (processCommand_single exEmptyConfig exEmptyEvent).2.2 rfl⟩

end Drogue

namespace Drogue

/-! ### Data layer: channel keys (C4) -/

/-- The channels of the updates whose feature name is resolvable. -/
def resolvableChannels (us : List Update) : List String :=
  (us.filter fun u => (featureOf u).isSome).map Update.channel

/-- One compaction step touches exactly the update's channel key. -/
theorem keys_compactedInsert (m : List (String × MqttEvent)) (u : Update) (g : String) :
    (compactedInsert m u g).map Prod.fst =
      if u.channel ∈ m.map Prod.fst then m.map Prod.fst
      else m.map Prod.fst ++ [u.channel] := by
  induction m with
  | nil => simp [compactedInsert]
  | cons p rest ih =>
    obtain ⟨k, e⟩ := p
    by_cases hk : k = u.channel
    · subst hk
      simp [compactedInsert]
    · have hne : u.channel ≠ k := fun h => hk h.symm
      by_cases hmem : u.channel ∈ rest.map Prod.fst <;>
        simp [compactedInsert, hk, hne, hmem, ih]

/-- Unfolding the compaction loop one update at a time. -/
theorem compactFold_cons (m : List (String × MqttEvent)) (u : Update) (us : List Update) :
    compactFold m (u :: us) =
      compactFold
        (match featureOf u with
          | some g => compactedInsert m u g
          | none => m)
        us := rfl

/-- `resolvableChannels` on a cons. -/
theorem resolvableChannels_cons (u : Update) (us : List Update) :
    resolvableChannels (u :: us) =
      if (featureOf u).isSome then u.channel :: resolvableChannels us
      else resolvableChannels us := by
  simp only [resolvableChannels, List.filter_cons]
  split <;> simp

/-- The channel keys reached by the compaction loop. -/
theorem mem_keys_compactFold (us : List Update) :
    ∀ (m : List (String × MqttEvent)) (c : String),
      c ∈ (compactFold m us).map Prod.fst ↔
        c ∈ m.map Prod.fst ∨ c ∈ resolvableChannels us := by
  induction us with
  | nil => intro m c; simp [compactFold, resolvableChannels]
  | cons u us ih =>
    intro m c
    rw [compactFold_cons, resolvableChannels_cons]
    cases hg : featureOf u with
    | none => rw [ih]; rfl
    | some g =>
      rw [ih, keys_compactedInsert]
      simp only [Option.isSome_some, if_true, List.mem_cons]
      by_cases hmem : u.channel ∈ m.map Prod.fst
      · simp only [hmem, if_true]
        constructor
        · rintro (h | h)
          · exact Or.inl h
          · exact Or.inr (Or.inr h)
        · rintro (h | h | h)
          · exact Or.inl h
          · exact Or.inl (h ▸ hmem)
          · exact Or.inr h
      · simp only [hmem, if_false, List.mem_append, List.mem_singleton]
        tauto

/-- The compaction loop never duplicates a channel key. -/
theorem nodup_keys_compactFold (us : List Update) :
    ∀ (m : List (String × MqttEvent)),
      (m.map Prod.fst).Nodup → ((compactFold m us).map Prod.fst).Nodup := by
  induction us with
  | nil => intro m hm; exact hm
  | cons u us ih =>
    intro m hm
    rw [compactFold_cons]
    cases hg : featureOf u with
    | none => exact ih m hm
    | some g =>
      apply ih
      rw [keys_compactedInsert]
      by_cases hmem : u.channel ∈ m.map Prod.fst
      · simpa [hmem] using hm
      · simp [hmem, List.nodup_append, hm]

/-- C4: for every batch fed to the delta data layer, the number of emitted
MQTT events equals the number of distinct channels among the updates whose
feature name is resolvable. -/
theorem dataLayer_event_count (us : List Update) :
    (dataLayerUpdate us).length = (resolvableChannels us).dedup.length := by
  have hnodup : ((compactFold [] us).map Prod.fst).Nodup :=
    nodup_keys_compactFold us [] (by simp)
  have hmem : ∀ c, c ∈ (compactFold [] us).map Prod.fst ↔ c ∈ resolvableChannels us := by
    intro c
    rw [mem_keys_compactFold]
    simp
  calc (dataLayerUpdate us).length
      = ((compactFold [] us).map Prod.fst).length := by
        simp [dataLayerUpdate]
    _ = ((compactFold [] us).map Prod.fst).dedup.length := by
        rw [hnodup.dedup]
    _ = ((compactFold [] us).map Prod.fst).toFinset.card := by
        rw [List.card_toFinset]
    _ = (resolvableChannels us).toFinset.card := by
        congr 1
        ext c
        simp only [List.mem_toFinset]
        exact hmem c
    _ = (resolvableChannels us).dedup.length := List.card_toFinset _

end Drogue

namespace Drogue

/-! ### Data layer: per-channel payload content (C5, C6) -/

/-- The value an emitted payload assigns to a feature: look under the
`features` object. -/
def payloadFeature (p : JValue) (f : String) : Option JValue :=
  match p with
  | JValue.obj fields =>
    match lookupField fields "features" with
    | some (JValue.obj feats) => lookupField feats f
    | _ => none
  | _ => none

/-- The value the emitted event for channel `c` (if any) assigns to
feature `f`. -/
def outputFeature (out : List MqttEvent) (c f : String) : Option JValue :=
  match out.find? (fun e => decide (e.channel = c)) with
  | some e => payloadFeature e.payload f
  | none => none

/-- The value of the last update in the batch with channel `c` and
resolved feature `f` (later updates override earlier ones). -/
def lastFeatureValue (us : List Update) (c f : String) : Option JValue :=
  us.foldl
    (fun r u => if u.channel = c ∧ featureOf u = some f then some u.value else r)
    none

/-- Well-formedness of the compaction accumulator: every entry's event
carries its key as channel and a `{"features": {...}}` payload. -/
def OkMap (m : List (String × MqttEvent)) : Prop :=
  ∀ p ∈ m, p.2.channel = p.1 ∧
    ∃ feats, p.2.payload = JValue.obj [("features", JValue.obj feats)]

/-- Lookup after insert: the inserted key reads back the inserted value,
every other key is unchanged. -/
theorem lookupField_insertField (fields : List (String × JValue)) (k : String)
    (v : JValue) (k' : String) :
    lookupField (insertField fields k v) k' =
      if k' = k then some v else lookupField fields k' := by
  induction fields with
  | nil =>
    by_cases h : k' = k
    · simp [insertField, lookupField, h]
    · have h' : ¬k = k' := fun hk => h hk.symm
      simp [insertField, lookupField, h, h']
  | cons p rest ih =>
    obtain ⟨k0, v0⟩ := p
    simp only [insertField]
    by_cases h0 : k0 = k
    · subst h0
      simp only [if_pos rfl, lookupField]
      by_cases h : k' = k0
      · simp [h]
      · have h' : ¬k0 = k' := fun hk => h hk.symm
        simp [h, h']
    · simp only [if_neg h0, lookupField, ih]
      by_cases h1 : k0 = k'
      · have hk : ¬k' = k := fun hh => h0 (h1.trans hh)
        simp [h1, hk]
      · simp [h1]

/-- The occupied-entry branch on a well-formed event: the channel is kept
and the feature is inserted into the `features` object. -/
theorem eventInsertFeature_eq (e : MqttEvent) (feats : List (String × JValue))
    (hshape : e.payload = JValue.obj [("features", JValue.obj feats)])
    (g : String) (v : JValue) :
    eventInsertFeature e g v =
      { channel := e.channel
        payload := JValue.obj [("features", JValue.obj (insertField feats g v))] } := by
  rw [eventInsertFeature, hshape]
  simp [lookupField, insertField]

/-- Each compaction step preserves accumulator well-formedness. -/
theorem okMap_compactedInsert (u : Update) (g : String) :
    ∀ m : List (String × MqttEvent), OkMap m → OkMap (compactedInsert m u g) := by
  intro m
  induction m with
  | nil =>
    intro _ p hp
    simp only [compactedInsert, List.mem_singleton] at hp
    subst hp
    exact ⟨rfl, _, rfl⟩
  | cons q rest ih =>
    intro hm
    obtain ⟨k, e⟩ := q
    obtain ⟨hch, feats, hshape⟩ := hm (k, e) (List.mem_cons_self _ _)
    have hmrest : OkMap rest := fun p hp => hm p (List.mem_cons_of_mem _ hp)
    intro p hp
    by_cases h : k = u.channel
    · rw [show compactedInsert ((k, e) :: rest) u g =
          (k, eventInsertFeature e g u.value) :: rest by
        simp [compactedInsert, h]] at hp
      rcases List.mem_cons.mp hp with hp | hp
      · subst hp
        rw [eventInsertFeature_eq e feats hshape]
        exact ⟨hch, _, rfl⟩
      · exact hmrest p hp
    · rw [show compactedInsert ((k, e) :: rest) u g =
          (k, e) :: compactedInsert rest u g by
        simp [compactedInsert, h]] at hp
      rcases List.mem_cons.mp hp with hp | hp
      · subst hp
        exact ⟨hch, feats, hshape⟩
      · exact ih hmrest p hp

end Drogue

namespace Drogue

/-- `outputFeature` on a cons: the first event with the channel wins. -/
theorem outputFeature_cons (e : MqttEvent) (out : List MqttEvent) (c f : String) :
    outputFeature (e :: out) c f =
      if e.channel = c then payloadFeature e.payload f else outputFeature out c f := by
  by_cases h : e.channel = c
  · rw [outputFeature, List.find?_cons_of_pos _ (by simp [h]), if_pos h]
  · rw [outputFeature, List.find?_cons_of_neg _ (by simp [h]), if_neg h, outputFeature]

/-- One compaction step, seen through per-channel feature lookup: it sets
the update's feature on the update's channel and changes nothing else. -/
theorem outputFeature_compactedInsert (u : Update) (g : String) (c f : String) :
    ∀ m : List (String × MqttEvent), OkMap m →
      outputFeature ((compactedInsert m u g).map Prod.snd) c f =
        if u.channel = c ∧ g = f then some u.value
        else outputFeature (m.map Prod.snd) c f := by
  intro m
  induction m with
  | nil =>
    intro _
    by_cases hc : u.channel = c
    · by_cases hg : g = f
      · simp [compactedInsert, outputFeature_cons, newChannelEvent, payloadFeature,
          lookupField, hc, hg]
      · have hg' : ¬f = g := fun hh => hg hh.symm
        simp [compactedInsert, outputFeature_cons, newChannelEvent, payloadFeature,
          lookupField, outputFeature, hc, hg, hg']
    · simp [compactedInsert, outputFeature_cons, newChannelEvent, outputFeature, hc]
  | cons q rest ih =>
    intro hm
    obtain ⟨k, e⟩ := q
    obtain ⟨hch, feats, hshape⟩ := hm (k, e) (List.mem_cons_self _ _)
    replace hch : e.channel = k := hch
    replace hshape : e.payload = JValue.obj [("features", JValue.obj feats)] := hshape
    have hmrest : OkMap rest := fun p hp => hm p (List.mem_cons_of_mem _ hp)
    by_cases hk : k = u.channel
    · rw [show compactedInsert ((k, e) :: rest) u g =
          (k, eventInsertFeature e g u.value) :: rest by simp [compactedInsert, hk]]
      rw [List.map_cons, eventInsertFeature_eq e feats hshape]
      have hke : e.channel = u.channel := hch.trans hk
      by_cases hc : u.channel = c
      · by_cases hg : g = f
        · simp [outputFeature_cons, payloadFeature, hshape, lookupField_insertField,
            lookupField, hke, hc, hg]
        · have hg' : ¬f = g := fun hh => hg hh.symm
          simp [outputFeature_cons, payloadFeature, hshape, lookupField_insertField,
            lookupField, hke, hc, hg, hg']
      · simp [outputFeature_cons, hke, hc]
    · rw [show compactedInsert ((k, e) :: rest) u g =
          (k, e) :: compactedInsert rest u g by simp [compactedInsert, hk]]
      by_cases hc : k = c
      · have huc : ¬u.channel = c := fun hh => hk (hc.trans hh.symm)
        simp [outputFeature_cons, hch, hc, huc]
      · have hrec := ih hmrest
        simp only [List.map_cons, outputFeature_cons, hch, hc, if_false]
        simpa [hc] using hrec

end Drogue

namespace Drogue

/-- The last-match fold with an arbitrary start value. -/
theorem lastFeatureValue_foldl (c f : String) :
    ∀ (us : List Update) (init : Option JValue),
      us.foldl
          (fun r u => if u.channel = c ∧ featureOf u = some f then some u.value else r)
          init =
        match lastFeatureValue us c f with
        | some v => some v
        | none => init := by
  intro us
  induction us with
  | nil => intro init; rfl
  | cons u us ih =>
    intro init
    rw [List.foldl_cons, ih]
    conv_rhs => rw [lastFeatureValue, List.foldl_cons, ih]
    cases hl : lastFeatureValue us c f with
    | some v => rfl
    | none => by_cases h : u.channel = c ∧ featureOf u = some f <;> simp [h]

/-- The whole compaction loop, seen through per-channel feature lookup:
the last matching update of the batch wins, and entries of the incoming
accumulator survive untouched features. -/
theorem outputFeature_compactFold (c f : String) :
    ∀ (us : List Update) (m : List (String × MqttEvent)), OkMap m →
      outputFeature ((compactFold m us).map Prod.snd) c f =
        match lastFeatureValue us c f with
        | some v => some v
        | none => outputFeature (m.map Prod.snd) c f := by
  intro us
  induction us with
  | nil => intro m _; rfl
  | cons u us ih =>
    intro m hm
    rw [compactFold_cons]
    have hcons : lastFeatureValue (u :: us) c f =
        match lastFeatureValue us c f with
        | some v => some v
        | none =>
          if u.channel = c ∧ featureOf u = some f then some u.value else none := by
      rw [lastFeatureValue, List.foldl_cons, lastFeatureValue_foldl]
    rw [hcons]
    cases hg : featureOf u with
    | none =>
      rw [ih m hm]
      cases hl : lastFeatureValue us c f <;> simp [hg]
    | some g =>
      rw [ih (compactedInsert m u g) (okMap_compactedInsert u g m hm),
        outputFeature_compactedInsert u g c f m hm]
      cases hl : lastFeatureValue us c f with
      | some v => rfl
      | none => by_cases h : u.channel = c ∧ g = f <;> simp [hg, h]

/-- C5: the payload the delta data layer emits for a channel maps each
feature to the value of the last update in batch iteration order with that
channel and that resolved feature — later updates to the same
`(channel, feature)` pair overwrite earlier ones. -/
theorem dataLayer_last_write_wins (us : List Update) (c f : String) :
    outputFeature (dataLayerUpdate us) c f = lastFeatureValue us c f := by
  rw [dataLayerUpdate,
    outputFeature_compactFold c f us [] (fun p hp => absurd hp (List.not_mem_nil p))]
  cases lastFeatureValue us c f <;> rfl

end Drogue

namespace Drogue

/-- The feature derivation as the spec states it: the `feature` extension
when present and a string, otherwise the last address segment when the
address is non-empty, otherwise unresolved. -/
def claimedFeature (u : Update) : Option String :=
  match (u.extensions "feature").bind JValue.asStr with
  | some s => some s
  | none => if u.address.isEmpty then none else u.address.getLast?

/-- A batch position witnessing a `some` result of `lastFeatureValue`. -/
theorem lastFeatureValue_mem (c f : String) :
    ∀ (us : List Update) (v : JValue), lastFeatureValue us c f = some v →
      ∃ u' ∈ us, u'.channel = c ∧ featureOf u' = some f := by
  intro us
  induction us with
  | nil => intro v h; exact absurd h (by simp [lastFeatureValue])
  | cons u us ih =>
    intro v h
    rw [lastFeatureValue, List.foldl_cons, lastFeatureValue_foldl] at h
    cases hl : lastFeatureValue us c f with
    | some w =>
      obtain ⟨u', hu', hc', hf'⟩ := ih w hl
      exact ⟨u', List.mem_cons_of_mem _ hu', hc', hf'⟩
    | none =>
      rw [hl] at h
      by_cases hcond : u.channel = c ∧ featureOf u = some f
      · exact ⟨u, List.mem_cons_self _ _, hcond.1, hcond.2⟩
      · rw [if_neg hcond] at h
        exact absurd h (by simp)

/-- C6: the data layer's feature name is `extensions["feature"]` when
present and a string, else the last address segment when the address is
non-empty, else the update is discarded; consequently every feature the
data layer emits is the resolved feature of some update of the batch. -/
theorem dataLayer_feature_resolution (u : Update) (us : List Update) (c f : String) :
    featureOf u = claimedFeature u ∧
      ((outputFeature (dataLayerUpdate us) c f).isSome = true →
        ∃ u' ∈ us, u'.channel = c ∧ featureOf u' = some f) := by
  constructor
  · rw [featureOf, claimedFeature]
    cases hx : u.extensions "feature" with
    | none =>
      simp only [Option.none_bind]
      cases u.address <;> simp
    | some v =>
      cases v <;> simp [JValue.asStr] <;> (cases u.address <;> simp)
  · intro h
    rw [dataLayerUpdate,
      outputFeature_compactFold c f us [] (fun p hp => absurd hp (List.not_mem_nil p))] at h
    cases hl : lastFeatureValue us c f with
    | some v => exact lastFeatureValue_mem c f us v hl
    | none => rw [hl] at h; exact absurd h (by simp [outputFeature])

/-- An update whose feature resolves through its last address segment. -/
def exFeatUpdate : Update :=
  { address := ["a", "x"], channel := "ch", value := JValue.null, extensions := emptyExt }

/-- Witness for C6 at a concrete one-update batch. -/
theorem dataLayer_feature_resolution_witness :
    featureOf exFeatUpdate = claimedFeature exFeatUpdate ∧
      ∃ u' ∈ [exFeatUpdate], u'.channel = "ch" ∧ featureOf u' = some "x" :=
  ⟨(dataLayer_feature_resolution exFeatUpdate [exFeatUpdate] "ch" "x").1,
   (dataLayer_feature_resolution exFeatUpdate [exFeatUpdate] "ch" "x").2 (by decide)⟩

end Drogue

namespace Drogue

/-! ### C7: the MQTT command inbox -/

/-- C7: the adapter forwards a command event exactly when the topic is
`command/inbox//write` and the payload deserializes as
`{connection, value, nodeId}`; the forwarded event is a single update at
`["cloud","commands",connection]` on channel `connection` carrying the
payload's value and `extensions["nodeId"] = nodeId`; other topics and
malformed payloads forward nothing (the handler is total — no panic). -/
theorem handleCommand_spec (topic : String) (payload : Option JValue) :
    ((handleCommand topic payload).isSome = true ↔
      topic = "command/inbox//write" ∧ (payload.bind parseWriteCommand).isSome = true) ∧
    ∀ e, handleCommand topic payload = some e →
      ∃ cmd, payload.bind parseWriteCommand = some cmd ∧
        e.updates =
          [{ address := ["cloud", "commands", cmd.connection]
             channel := cmd.connection
             value := cmd.value
             extensions := extInsert emptyExt "nodeId" (JValue.str cmd.nodeId) }] := by
  by_cases ht : topic = "command/inbox//write"
  · constructor
    · cases hp : payload.bind parseWriteCommand <;> simp [handleCommand, ht, hp]
    · intro e he
      rw [handleCommand, if_pos ht] at he
      cases hp : payload.bind parseWriteCommand with
      | none => rw [hp] at he; exact absurd he (by simp)
      | some cmd =>
        rw [hp] at he
        refine ⟨cmd, rfl, ?_⟩
        rw [← Option.some.inj he]
  · constructor
    · simp [handleCommand, ht]
    · intro e he
      rw [handleCommand, if_neg ht] at he
      exact absurd he (by simp)

/-- A well-formed write-command payload. -/
def exCmdPayload : JValue :=
  JValue.obj
    [("connection", JValue.str "plc"), ("value", JValue.bool true),
     ("nodeId", JValue.str "ns=2;s=Foo")]

/-- Witness for C7 at the recognized topic with a well-formed payload. -/
theorem handleCommand_spec_witness :
    ∃ cmd, (some exCmdPayload).bind parseWriteCommand = some cmd ∧
      ({ updates :=
          [{ address := ["cloud", "commands", "plc"]
             channel := "plc"
             value := JValue.bool true
             extensions := extInsert emptyExt "nodeId" (JValue.str "ns=2;s=Foo") }] } :
            Event).updates =
        [{ address := ["cloud", "commands", cmd.connection]
           channel := cmd.connection
           value := cmd.value
           extensions := extInsert emptyExt "nodeId" (JValue.str cmd.nodeId) }] :=
  (handleCommand_spec "command/inbox//write" (some exCmdPayload)).2 _ rfl

end Drogue

namespace Drogue

/-! ### C8: JSON to OPC UA variant -/

/-- C8: the reverse JSON-to-variant mapping sends `null` to the empty
variant, booleans to booleans, non-negative integers to `UInt64`, negative
integers to `Int64`, floats to `Double`, strings to strings, every array to
the status `BadDataEncodingUnsupported`, and a number representable as none
of `u64`/`i64`/`f64` to the status `BadInvalidArgument` — independently of
the library's object dispatch. -/
theorem intoVariant_spec (d : List (String × JValue) → Option Variant) :
    intoVariant d JValue.null = Variant.empty ∧
    (∀ b, intoVariant d (JValue.bool b) = Variant.boolean b) ∧
    (∀ n, intoVariant d (JValue.num (JNum.posInt n)) = Variant.uint64 n) ∧
    (∀ i, intoVariant d (JValue.num (JNum.negInt i)) = Variant.int64 i) ∧
    (∀ x, intoVariant d (JValue.num (JNum.float x)) = Variant.double (JNum.float x)) ∧
    (∀ s, intoVariant d (JValue.str s) = Variant.string s) ∧
    (∀ xs, intoVariant d (JValue.arr xs) =
      Variant.statusCode StatusCode.BadDataEncodingUnsupported) ∧
    (∀ lit, (JNum.big lit).asU64 = none ∧ (JNum.big lit).asI64 = none ∧
      (JNum.big lit).asF64 = none ∧
      intoVariant d (JValue.num (JNum.big lit)) =
        Variant.statusCode StatusCode.BadInvalidArgument) :=
  ⟨rfl, fun _ => rfl, fun _ => rfl, fun _ => rfl, fun _ => rfl, fun _ => rfl,
   fun _ => rfl, fun _ => ⟨rfl, rfl, rfl, rfl⟩⟩

end Drogue

namespace Drogue

/-! ### C1: address parse/render -/

/-- The rendering of an address tail: each further segment is preceded by
the `/` separator. -/
def renderTail : List String → List Char
  | [] => []
  | s :: rest => '/' :: (escSegChars s.data ++ renderTail rest)

/-- A separator closes the current segment. -/
theorem parseChars_slash (rest : List Char) (paths : List String) (current : List Char) :
    parseChars ('/' :: rest) paths current =
      parseChars rest (paths ++ [String.mk current]) [] := rfl

/-- Parsing an escaped segment appends its characters to the current
segment, consuming no separator. -/
theorem parseChars_escSeg (cs : List Char) :
    ∀ (rest : List Char) (paths : List String) (current : List Char),
      parseChars (escSegChars cs ++ rest) paths current =
        parseChars rest paths (current ++ cs) := by
  induction cs with
  | nil => intro rest paths current; simp [escSegChars]
  | cons c cs ih =>
    intro rest paths current
    by_cases hsp : c = '/' ∨ c = '\\'
    · rw [show escSegChars (c :: cs) = '\\' :: c :: escSegChars cs by
        simp [escSegChars, hsp]]
      rw [List.cons_append, List.cons_append]
      rw [show parseChars ('\\' :: c :: (escSegChars cs ++ rest)) paths current =
          parseChars (escSegChars cs ++ rest) paths (current ++ [c]) from rfl]
      rw [ih]
      simp
    · have hc1 : ¬c = '/' := fun hh => hsp (Or.inl hh)
      have hc2 : ¬c = '\\' := fun hh => hsp (Or.inr hh)
      rw [show escSegChars (c :: cs) = c :: escSegChars cs by simp [escSegChars, hsp]]
      rw [List.cons_append]
      rw [show parseChars (c :: (escSegChars cs ++ rest)) paths current =
          parseChars (escSegChars cs ++ rest) paths (current ++ [c]) by
        simp [parseChars, hc1, hc2]]
      rw [ih]
      simp

/-- Parsing a rendered tail closes the current segment and yields the
remaining segments verbatim. -/
theorem parseChars_renderTail (xs : List String) :
    ∀ (paths : List String) (cur : List Char),
      parseChars (renderTail xs) paths cur = paths ++ [String.mk cur] ++ xs := by
  induction xs with
  | nil => intro paths cur; simp [renderTail, parseChars]
  | cons y ys ih =>
    intro paths cur
    rw [renderTail, parseChars_slash, parseChars_escSeg, ih]
    simp [show ∀ s : String, String.mk s.data = s from fun _ => rfl]

/-- The renderer, split into head segment and tail. -/
theorem renderChars_eq_renderTail (xs : List String) :
    ∀ x : String, renderChars (x :: xs) = escSegChars x.data ++ renderTail xs := by
  induction xs with
  | nil => intro x; simp [renderChars, renderTail]
  | cons y ys ih =>
    intro x
    rw [show renderChars (x :: y :: ys) =
        escSegChars x.data ++ '/' :: renderChars (y :: ys) from rfl]
    rw [ih y, renderTail]

/-- Escaping erases no character. -/
theorem escSegChars_eq_nil (cs : List Char) : escSegChars cs = [] ↔ cs = [] := by
  cases cs with
  | nil => simp [escSegChars]
  | cons c cs => by_cases hsp : c = '/' ∨ c = '\\' <;> simp [escSegChars, hsp]

/-- C1 (amended): the escape-aware renderer round-trips through
`Address::from_str` for every address except the singleton empty segment
(whose rendering is the empty string, which parses to the empty address);
the actual `Display` implementation is the debug form of the vector and
does not round-trip. -/
theorem renderAddress_roundtrip (a : Address) (h : a ≠ [""]) :
    addressFromStr (renderAddress a) = a := by
  cases a with
  | nil => rfl
  | cons x xs =>
    have hne : ¬(renderChars (x :: xs)).isEmpty = true := by
      rw [renderChars_eq_renderTail xs x]
      cases xs with
      | nil =>
        simp only [renderTail, List.append_nil, List.isEmpty_iff]
        intro hh
        apply h
        have hx : x.data = [] := (escSegChars_eq_nil x.data).mp hh
        have hx' : x = "" := by
          obtain ⟨d⟩ := x
          simp only at hx
          rw [hx]
        rw [hx']
      | cons y ys => simp [renderTail, List.isEmpty_iff]
    rw [renderAddress, addressFromStr]
    rw [if_neg hne]
    rw [renderChars_eq_renderTail xs x, parseChars_escSeg, parseChars_renderTail]
    simp [show String.mk x.data = x from rfl]

/-- C1 (counterexample): the `Display` form of the address `["a"]` is the
vector debug string, which parses back to a one-segment address holding
that whole string, not to `["a"]`; and even the escape-aware renderer fails
on `[""]`, which renders to the empty string and parses to `[]`. -/
theorem displayAddress_not_roundtrip :
    addressFromStr (displayAddress ["a"]) ≠ ["a"] ∧
      addressFromStr (renderAddress [""]) ≠ [""] := by
  constructor <;> decide

/-- Witness for the amended C1 on segments exercising both escapes. -/
theorem renderAddress_roundtrip_witness :
    (["seg/1", "seg\\2", ""] : List String) ≠ [""] ∧
      addressFromStr (renderAddress ["seg/1", "seg\\2", ""]) =
        ["seg/1", "seg\\2", ""] :=
  ⟨by decide, renderAddress_roundtrip _ (by decide)⟩

end Drogue
